import Mathlib

/-!
Shallow embedding of the serdew binary serialization library (Go, package
serdew, file serdew.go) and proofs of the specified properties.

Modelling conventions:
- Machine bytes are `Nat`s; every write masks with `% 256` exactly as Go's
  `byte(...)` conversion does, so buffer contents produced by the model are
  always below 256.  Reads apply the same mask, which is the identity on any
  byte a real Go buffer can hold.
- Go's `Ctx[S]` carries its mode in the type parameter (`Ser`/`De`); the
  model stores the mode as a field and every operation branches on it the
  way the Go code branches on `IsSerializer()`.
- Go errors are modelled by the inductive `Err`; `errUnexpectedEnd` is
  `Err.unexpectedEnd` and errors produced by an external binary capability
  are `Err.capFail code`.
- `Raw` in encode mode returns a writable window aliasing the tail of the
  buffer; the caller then fills it completely.  Aliasing is modelled by
  `fillTail`, which overwrites the just-granted tail with the bytes the
  caller writes.
- Go slices carry a length and a capacity over a backing array.  `GoSlice`
  models the visible elements (`data`) plus the spare backing region between
  the length and the capacity (`extra`), so `cap = data.length +
  extra.length`, and `make([]T, n)` yields `⟨payload-sized data, []⟩`.
-/

/-- Encode/decode mode of a context: `Ctx[Ser]` vs `Ctx[De]` in the Go code. -/
inductive Mode where
  | ser
  | de
deriving DecidableEq, Repr

/-- Errors a (de)serialization pass can store.  `unexpectedEnd` is the Go
package-level `errUnexpectedEnd`; `capFail code` stands for an arbitrary
error value reported by an external binary capability (the code only carries
such errors around, never inspects them, so an opaque tag is faithful). -/
inductive Err where
  | unexpectedEnd
  | capFail (code : Nat)
deriving DecidableEq, Repr

/-- The (de)serialization context `Ctx[S]`: the byte buffer and the stored
error, plus the mode that Go keeps in the type parameter `S`. -/
structure Ctx where
  mode : Mode
  bytes : List Nat
  err : Option Err
deriving DecidableEq, Repr

namespace Ctx

/-- The Go method `Abort(err)` for a non-nil `err`: sets the stored error if
absent, and returns the stored error (first error wins). -/
def abort (c : Ctx) (e : Err) : Err × Ctx :=
  match c.err with
  | some e0 => (e0, c)
  | none => (e, { c with err := some e })

/-- The Go method `Abort(err)` including its nil-argument behaviour: calling
it with a nil error panics (`none` result); otherwise it behaves as `abort`. -/
def Abort (c : Ctx) (e : Option Err) : Option (Err × Ctx) :=
  match e with
  | none => none
  | some e => some (c.abort e)

/-- The Go method `Raw(n)`: returns the stored error when poisoned; in
encode mode appends a fresh `n`-byte window (fresh backing storage is
zeroed, and its contents are documented as undefined anyway); in decode mode
poisons with `unexpectedEnd` when fewer than `n` bytes remain, otherwise
yields the first `n` bytes and advances past them. -/
def Raw (c : Ctx) (n : Nat) : Except Err (List Nat) × Ctx :=
  match c.err with
  | some e => (.error e, c)
  | none =>
    match c.mode with
    | .ser =>
      (.ok (List.replicate n 0), { c with bytes := c.bytes ++ List.replicate n 0 })
    | .de =>
      if n > c.bytes.length then
        match c.abort Err.unexpectedEnd with
        | (e, c') => (.error e, c')
      else
        (.ok (c.bytes.take n), { c with bytes := c.bytes.drop n })

/-- Models the caller writing `content` into the window just granted by an
encode-mode `Raw content.length`: the window aliases the last
`content.length` buffer positions, so those bytes are overwritten. -/
def fillTail (c : Ctx) (content : List Nat) : Ctx :=
  { c with bytes := c.bytes.take (c.bytes.length - content.length) ++ content }

end Ctx

/-- The byte Go's `integer` writes at position `i`:
`byte(writeValue >> (i << 3))`. -/
def leBytes (w v : Nat) : List Nat :=
  (List.range w).map (fun i => (v >>> (8 * i)) % 256)

/-- The value Go's `integer` reconstructs from a window: the loop
`readValue |= T(b) << (i << 3)` over the window's bytes with their indices.
The `% 256` records that a Go buffer element is a `byte`. -/
def leDecode (bs : List Nat) : Nat :=
  bs.enum.foldl (fun acc p => acc ||| ((p.2 % 256) <<< (8 * p.1))) 0

/-- The Go function `integer[S, T]` for a `T` of byte width `w`: acquires a
`w`-byte window via `Raw`, then writes the value little-endian (encode) or
reconstructs it by OR-ing shifted bytes (decode). -/
def integer (w : Nat) (value : Nat) (c : Ctx) : Option Err × Nat × Ctx :=
  match c.Raw w with
  | (.error e, c') => (some e, value, c')
  | (.ok window, c') =>
    match c'.mode with
    | .ser => (none, value, c'.fillTail (leBytes w value))
    | .de => (none, leDecode window, c')

section LeLemmas

theorem leBytes_length (w v : Nat) : (leBytes w v).length = w := by
  simp [leBytes]

theorem two_pow_eight_mul_succ (k : Nat) : (2:Nat) ^ (8 * (k + 1)) = 256 * 2 ^ (8 * k) := by
  have h : (2:Nat) ^ 8 = 256 := by norm_num
  rw [Nat.mul_succ, pow_add, h, Nat.mul_comm]

theorem leBytes_succ (w v : Nat) :
    leBytes (w + 1) v = v % 256 :: leBytes w (v / 256) := by
  simp only [leBytes, List.range_succ_eq_map, List.map_cons, List.map_map]
  congr 1
  apply List.map_congr_left
  intro i _
  simp only [Function.comp_apply, Nat.shiftRight_eq_div_pow]
  rw [Nat.div_div_eq_div_mul]
  congr 2
  exact two_pow_eight_mul_succ i

theorem leBytes_lt (w v : Nat) : ∀ b ∈ leBytes w v, b < 256 := by
  intro b hb
  simp only [leBytes, List.mem_map] at hb
  obtain ⟨i, _, rfl⟩ := hb
  exact Nat.mod_lt _ (by norm_num)

/-- Disjoint OR is addition: if `a` fits below bit `n`, OR-ing in a multiple
of `2 ^ n` is the same as adding it. -/
theorem lor_two_pow_mul (n : Nat) : ∀ a b : Nat, a < 2 ^ n →
    a ||| (b * 2 ^ n) = a + b * 2 ^ n := by
  induction n with
  | zero =>
    intro a b h
    interval_cases a
    simp
  | succ n ih =>
    intro a b h
    have hmod : (a ||| (b * 2 ^ (n + 1))) % 2 = a % 2 := by
      rcases Nat.mod_two_eq_zero_or_one a with h2 | h2
      · rw [h2]
        by_contra hne
        have h1 : (a ||| (b * 2 ^ (n + 1))) % 2 = 1 := by
          rcases Nat.mod_two_eq_zero_or_one (a ||| (b * 2 ^ (n + 1))) with hx | hx
          · exact absurd hx hne
          · exact hx
        rcases Nat.or_mod_two_eq_one.mp h1 with hc | hc
        · omega
        · have : (b * 2 ^ (n + 1)) % 2 = 0 := by
            have : 2 ∣ b * 2 ^ (n + 1) := ⟨b * 2 ^ n, by ring⟩
            omega
          omega
      · rw [h2]
        exact Nat.or_mod_two_eq_one.mpr (Or.inl h2)
    have hdiv : (a ||| (b * 2 ^ (n + 1))) / 2 = (a / 2) ||| (b * 2 ^ n) := by
      rw [Nat.or_div_two]
      congr 1
      rw [pow_succ]
      rw [Nat.mul_div_assoc _ (by omega : (2:Nat) ∣ 2 ^ n * 2)]
      congr 1
      omega
    have ha2 : a / 2 < 2 ^ n := by
      rw [pow_succ] at h
      omega
    have hrec := ih (a / 2) b ha2
    have hx := Nat.div_add_mod (a ||| (b * 2 ^ (n + 1))) 2
    rw [hdiv, hmod, hrec] at hx
    have ha := Nat.div_add_mod a 2
    have hbb : b * 2 ^ (n + 1) = 2 * (b * 2 ^ n) := by
      rw [pow_succ]
      ring
    omega

/-- Recursive little-endian value of a byte list; bridge form of `leDecode`
used by the proofs. -/
def leVal : List Nat → Nat
  | [] => 0
  | b :: rest => b % 256 + 256 * leVal rest

/-- The decode loop over bytes enumerated from index `k`, started at an
accumulator below `2 ^ (8 * k)`, adds the little-endian value of the bytes
shifted into position. -/
theorem leDecode_foldl (bs : List Nat) : ∀ (k acc : Nat), acc < 2 ^ (8 * k) →
    (bs.enumFrom k).foldl (fun acc p => acc ||| ((p.2 % 256) <<< (8 * p.1))) acc
      = acc + 2 ^ (8 * k) * leVal bs := by
  induction bs with
  | nil =>
    intro k acc _
    simp [leVal]
  | cons b rest ih =>
    intro k acc hacc
    have hstep : acc ||| ((b % 256) <<< (8 * k)) = acc + (b % 256) * 2 ^ (8 * k) := by
      rw [Nat.shiftLeft_eq]
      exact lor_two_pow_mul (8 * k) acc (b % 256) hacc
    have h28 := two_pow_eight_mul_succ k
    have hacc' : acc + (b % 256) * 2 ^ (8 * k) < 2 ^ (8 * (k + 1)) := by
      have hble : (b % 256) * 2 ^ (8 * k) ≤ 255 * 2 ^ (8 * k) :=
        Nat.mul_le_mul_right _ (by omega)
      omega
    rw [List.enumFrom_cons, List.foldl_cons]
    simp only at hstep ⊢
    rw [hstep, ih (k + 1) _ hacc']
    simp only [leVal]
    rw [h28]
    ring

theorem leDecode_eq_leVal (bs : List Nat) : leDecode bs = leVal bs := by
  have h := leDecode_foldl bs 0 0 (by norm_num)
  simpa [leDecode, List.enum] using h

/-- Little-endian roundtrip: decoding the bytes written for `v` at width `w`
recovers `v` modulo `2 ^ (8 * w)`. -/
theorem leVal_leBytes (w : Nat) : ∀ v, leVal (leBytes w v) = v % 2 ^ (8 * w) := by
  induction w with
  | zero =>
    intro v
    simp [leBytes, leVal, Nat.mod_one]
  | succ w ih =>
    intro v
    rw [leBytes_succ, leVal, ih]
    rw [two_pow_eight_mul_succ, Nat.mod_mul (a := 256) (b := 2 ^ (8 * w)) (x := v)]
    omega

theorem leDecode_leBytes (w v : Nat) (h : v < 2 ^ (8 * w)) :
    leDecode (leBytes w v) = v := by
  rw [leDecode_eq_leVal, leVal_leBytes, Nat.mod_eq_of_lt h]

end LeLemmas

/-- A Go slice value: the visible elements (`data`, whose length is the Go
`len`) together with the spare backing storage between `len` and `cap`
(`extra`), so the Go `cap` is `data.length + extra.length`. -/
structure GoSlice (α : Type) where
  data : List α
  extra : List α
deriving DecidableEq, Repr

/-- The Go `cap` of a slice in this model. -/
def GoSlice.cap (s : GoSlice α) : Nat :=
  s.data.length + s.extra.length

/-- The Go function `String[S]`: writes the length via `integer`, then the
string's bytes through a `Raw` window; on decode reads the length, acquires
that many bytes and replaces the destination with them.  Go strings are
modelled as their byte lists. -/
def StringOp (str : List Nat) (c : Ctx) : Option Err × List Nat × Ctx :=
  match integer 8 str.length c with
  | (some e, _, c') => (some e, str, c')
  | (none, length, c') =>
    match c'.Raw length with
    | (.error e, c'') => (some e, str, c'')
    | (.ok window, c'') =>
      match c''.mode with
      | .ser => (none, str, c''.fillTail (str.take length))
      | .de => (none, window, c'')

/-- The Go function `Bytes[S]`: length-prefixed raw byte payload.  On decode
the destination is reallocated only when its capacity is below the payload
length; otherwise the payload is copied into the slice's backing storage via
`(*bytes)[:n]`, leaving the visible length unchanged. -/
def BytesOp (bytes : GoSlice Nat) (c : Ctx) : Option Err × GoSlice Nat × Ctx :=
  match integer 8 bytes.data.length c with
  | (some e, _, c') => (some e, bytes, c')
  | (none, length, c') =>
    match c'.Raw length with
    | (.error e, c'') => (some e, bytes, c'')
    | (.ok ctxBytes, c'') =>
      match c''.mode with
      | .ser => (none, bytes, c''.fillTail (bytes.data.take length))
      | .de =>
        if bytes.cap < ctxBytes.length then
          (none, ⟨ctxBytes, []⟩, c'')
        else
          (none,
            ⟨(ctxBytes ++ (bytes.data ++ bytes.extra).drop ctxBytes.length).take bytes.data.length,
             (ctxBytes ++ (bytes.data ++ bytes.extra).drop ctxBytes.length).drop bytes.data.length⟩,
            c'')

/-- The element loop of `Slice`: invoke `f` on each position in order,
stopping at the first reported error. -/
def runElems (f : α → Ctx → Option Err × α × Ctx) : List α → Ctx → Option Err × List α × Ctx
  | [], c => (none, [], c)
  | a :: rest, c =>
    match f a c with
    | (some e, a', c') => (some e, a' :: rest, c')
    | (none, a', c') =>
      match runElems f rest c' with
      | (e, rest', c'') => (e, a' :: rest', c'')

/-- The Go function `Slice[S, T]`: length via `integer`, reallocation when
the destination's length is below the decoded count (`make([]T, length)`
zero-fills, hence `zeroVal`, and has capacity exactly `length`), then the
element codec on each of the first `length` positions in order. -/
def SliceOp (zeroVal : α) (f : α → Ctx → Option Err × α × Ctx)
    (slice : GoSlice α) (c : Ctx) : Option Err × GoSlice α × Ctx :=
  match integer 8 slice.data.length c with
  | (some e, _, c') => (some e, slice, c')
  | (none, length, c') =>
    match (if slice.data.length < length then
            (⟨slice.data ++ List.replicate (length - slice.data.length) zeroVal, []⟩ : GoSlice α)
          else slice) with
    | slice' =>
      match runElems f (slice'.data.take length) c' with
      | (e, done, c'') => (e, ⟨done ++ slice'.data.drop length, slice'.extra⟩, c'')

/-- Insertion `(*m)[k] = v` on the association-list model of a Go map:
overwrite the value at an existing key, otherwise add the entry. -/
def insertAL (beq : κ → κ → Bool) (k : κ) (v : ν) : List (κ × ν) → List (κ × ν)
  | [] => [(k, v)]
  | (k', v') :: rest =>
    if beq k' k then (k', v) :: rest else (k', v') :: insertAL beq k v rest

/-- Map lookup on the association-list model. -/
def lookupAL (beq : κ → κ → Bool) (k : κ) : List (κ × ν) → Option ν
  | [] => none
  | (k', v) :: rest => if beq k' k then some v else lookupAL beq k rest

/-- The encode loop of `Map`: emit each (key, value) pair through the
caller-supplied codecs, stopping at the first reported error.  The Go loop
passes copies of the key and value, so their updated values are discarded. -/
def mapSerLoop (fK : κ → Ctx → Option Err × κ × Ctx) (fV : ν → Ctx → Option Err × ν × Ctx) :
    List (κ × ν) → Ctx → Option Err × Ctx
  | [], c => (none, c)
  | (k, v) :: rest, c =>
    match fK k c with
    | (some e, _, c') => (some e, c')
    | (none, _, c') =>
      match fV v c' with
      | (some e, _, c'') => (some e, c'')
      | (none, _, c'') => mapSerLoop fK fV rest c''

/-- The decode loop of `Map`: for each of `count` entries decode a key and a
value into fresh zero-valued temporaries and insert the pair. -/
def mapDeLoop (fK : κ → Ctx → Option Err × κ × Ctx) (fV : ν → Ctx → Option Err × ν × Ctx)
    (beq : κ → κ → Bool) (zeroK : κ) (zeroV : ν) :
    Nat → List (κ × ν) → Ctx → Option Err × List (κ × ν) × Ctx
  | 0, m, c => (none, m, c)
  | n + 1, m, c =>
    match fK zeroK c with
    | (some e, _, c') => (some e, m, c')
    | (none, k, c') =>
      match fV zeroV c' with
      | (some e, _, c'') => (some e, m, c'')
      | (none, v, c'') => mapDeLoop fK fV beq zeroK zeroV n (insertAL beq k v m) c''

/-- The Go function `Map[S, K, V]` over the association-list model of a Go
map (`beq` is Go's `comparable` equality on `K`).  Encoding iterates the
entries in list order — one of the unspecified orders a Go map range can
produce.  The `*m == nil` check of the Go decode path is a no-op here: the
nil map and the empty map are both the empty association list. -/
def MapOp (beq : κ → κ → Bool) (zeroK : κ) (zeroV : ν)
    (fK : κ → Ctx → Option Err × κ × Ctx) (fV : ν → Ctx → Option Err × ν × Ctx)
    (m : List (κ × ν)) (c : Ctx) : Option Err × List (κ × ν) × Ctx :=
  match integer 8 m.length c with
  | (some e, _, c') => (some e, m, c')
  | (none, length, c') =>
    match c'.mode with
    | .ser =>
      match mapSerLoop fK fV m c' with
      | (e, c'') => (e, m, c'')
    | .de => mapDeLoop fK fV beq zeroK zeroV length m c'

/-- The encode arm of the Go function `Binary[S, T]`.  The capability's
`MarshalBinary` result is passed in already evaluated (the Go code calls it
before touching the context); a capability failure goes through `Abort`,
then the length is written (the call's error being ignored, as in Go) and
the payload copied into a `Raw` window. -/
def BinarySer (marshal : Except Err (List Nat)) (c : Ctx) : Option Err × Ctx :=
  match marshal with
  | .error e =>
    match c.abort e with
    | (e', c') => (some e', c')
  | .ok data =>
    match integer 8 data.length c with
    | (_, _, c') =>
      match c'.Raw data.length with
      | (.error e, c'') => (some e, c'')
      | (.ok _, c'') => (none, c''.fillTail data)

/-- The decode arm of the Go function `Binary[S, T]`: reads a length
(starting from `length := 0`, the call's error being ignored, as in Go),
acquires that many bytes and hands them to the capability's
`UnmarshalBinary`; note that a capability failure is returned but the
context is NOT passed through `Abort`. -/
def BinaryDe (unmarshal : List Nat → Except Err Unit) (c : Ctx) : Option Err × Ctx :=
  match integer 8 0 c with
  | (_, length, c') =>
    match c'.Raw length with
    | (.error e, c'') => (some e, c'')
    | (.ok window, c'') =>
      match unmarshal window with
      | .error e => (some e, c'')
      | .ok _ => (none, c'')

/-- The Go function `Binary[S, T]`, dispatching on the context mode as
`IsSerializer()` does. -/
def Binary (marshal : Except Err (List Nat)) (unmarshal : List Nat → Except Err Unit)
    (c : Ctx) : Option Err × Ctx :=
  match c.mode with
  | .ser => BinarySer marshal c
  | .de => BinaryDe unmarshal c

/-- The Go function `Number[S, T]` at an integer instantiation of byte width
`w`: `canTransmute` holds between `T` and the unsigned type of the same
width on the modelled platform, and `unsafeTransmutePtr` reinterprets the
two's-complement bit pattern in place, so the call is `integer` on the bit
pattern. -/
def Number (w : Nat) (value : Nat) (c : Ctx) : Option Err × Nat × Ctx :=
  integer w value c

/-- The Go function `Number[S, float32]`: `canTransmute[float32, uint32]`
holds (equal sizes, compatible alignments) on the modelled platform, so the
float's IEEE-754 bit pattern — the `Nat` here — is routed through `integer`
at width 4, `unsafeTransmutePtr` being a bit-pattern identity. -/
def NumberFloat32 (bits : Nat) (c : Ctx) : Option Err × Nat × Ctx :=
  integer 4 bits c

/-- The Go function `Number[S, float64]`, routed through `integer` at width
8 exactly as `NumberFloat32` is at width 4. -/
def NumberFloat64 (bits : Nat) (c : Ctx) : Option Err × Nat × Ctx :=
  integer 8 bits c

section OpLemmas

theorem fillTail_append (md : Mode) (er : Option Err) (pre pad content : List Nat)
    (h : pad.length = content.length) :
    Ctx.fillTail ⟨md, pre ++ pad, er⟩ content = ⟨md, pre ++ content, er⟩ := by
  unfold Ctx.fillTail
  have h1 : (pre ++ pad).length - content.length = pre.length := by
    simp [List.length_append, h]
  simp only [h1]
  rw [List.take_left]

/-- Encoding an integer appends exactly its little-endian bytes. -/
theorem integer_ser (w v : Nat) (pre : List Nat) :
    integer w v ⟨Mode.ser, pre, none⟩ = (none, v, ⟨Mode.ser, pre ++ leBytes w v, none⟩) := by
  have h := fillTail_append Mode.ser none pre (List.replicate w 0) (leBytes w v)
    (by simp [leBytes_length])
  simp [integer, Ctx.Raw, h]

/-- Decoding an integer from its little-endian bytes recovers the value and
consumes exactly its bytes. -/
theorem integer_de (w v0 v : Nat) (rest : List Nat) (hv : v < 2 ^ (8 * w)) :
    integer w v0 ⟨Mode.de, leBytes w v ++ rest, none⟩ = (none, v, ⟨Mode.de, rest, none⟩) := by
  have hlen : ¬ ((leBytes w v).length + rest.length < w) := by
    simp [leBytes_length]
  have htake : (leBytes w v ++ rest).take w = leBytes w v :=
    List.take_left' (leBytes_length w v)
  have hdrop : (leBytes w v ++ rest).drop w = rest :=
    List.drop_left' (leBytes_length w v)
  simp [integer, Ctx.Raw, hlen, htake, hdrop, leDecode_leBytes w v hv]

theorem poisoned_Raw (c : Ctx) (e0 : Err) (h : c.err = some e0) (n : Nat) :
    c.Raw n = (.error e0, c) := by
  simp [Ctx.Raw, h]

theorem poisoned_integer (c : Ctx) (e0 : Err) (h : c.err = some e0) (w v : Nat) :
    integer w v c = (some e0, v, c) := by
  simp [integer, poisoned_Raw c e0 h]

theorem poisoned_StringOp (c : Ctx) (e0 : Err) (h : c.err = some e0) (s : List Nat) :
    StringOp s c = (some e0, s, c) := by
  simp [StringOp, poisoned_integer c e0 h]

theorem poisoned_BytesOp (c : Ctx) (e0 : Err) (h : c.err = some e0) (b : GoSlice Nat) :
    BytesOp b c = (some e0, b, c) := by
  simp [BytesOp, poisoned_integer c e0 h]

theorem poisoned_SliceOp (c : Ctx) (e0 : Err) (h : c.err = some e0)
    (z : α) (f : α → Ctx → Option Err × α × Ctx) (sl : GoSlice α) :
    SliceOp z f sl c = (some e0, sl, c) := by
  simp [SliceOp, poisoned_integer c e0 h]

theorem poisoned_MapOp (c : Ctx) (e0 : Err) (h : c.err = some e0)
    (beq : κ → κ → Bool) (zk : κ) (zv : ν)
    (fK : κ → Ctx → Option Err × κ × Ctx) (fV : ν → Ctx → Option Err × ν × Ctx)
    (m : List (κ × ν)) :
    MapOp beq zk zv fK fV m c = (some e0, m, c) := by
  simp [MapOp, poisoned_integer c e0 h]

theorem poisoned_Binary (c : Ctx) (e0 : Err) (h : c.err = some e0)
    (mar : Except Err (List Nat)) (unm : List Nat → Except Err Unit) :
    Binary mar unm c = (some e0, c) := by
  cases hm : c.mode with
  | ser =>
    cases mar with
    | error e => simp [Binary, BinarySer, hm, Ctx.abort, h]
    | ok data => simp [Binary, BinarySer, hm, poisoned_integer c e0 h, poisoned_Raw c e0 h]
  | de =>
    simp [Binary, BinaryDe, hm, poisoned_integer c e0 h, poisoned_Raw c e0 h]

end OpLemmas

/-- C3: for every unpoisoned deserializer context, `Raw n` with fewer than
`n` bytes remaining stores the unexpected-end-of-buffer error, returns that
error without granting a window, and consumes no input; with at least `n`
bytes remaining it returns exactly the first `n` remaining bytes and
advances the buffer past them. -/
theorem C3_raw_decode (c : Ctx) (n : Nat) (hm : c.mode = Mode.de) (he : c.err = none) :
    (c.bytes.length < n →
      c.Raw n = (.error Err.unexpectedEnd,
        { c with err := some Err.unexpectedEnd })) ∧
    (n ≤ c.bytes.length →
      c.Raw n = (.ok (c.bytes.take n), { c with bytes := c.bytes.drop n })) := by
  constructor
  · intro hlt
    simp [Ctx.Raw, he, hm, hlt, Ctx.abort]
  · intro hle
    have : ¬ (c.bytes.length < n) := by omega
    simp [Ctx.Raw, he, hm, this]

theorem C3_raw_decode_witness :
    Ctx.Raw ⟨Mode.de, [1, 2], none⟩ 3
      = (.error Err.unexpectedEnd, ⟨Mode.de, [1, 2], some Err.unexpectedEnd⟩) ∧
    Ctx.Raw ⟨Mode.de, [1, 2], none⟩ 1 = (.ok [1], ⟨Mode.de, [2], none⟩) :=
  ⟨(C3_raw_decode ⟨Mode.de, [1, 2], none⟩ 3 rfl rfl).1 (by norm_num),
   (C3_raw_decode ⟨Mode.de, [1, 2], none⟩ 1 rfl rfl).2 (by norm_num)⟩

/-- C4: monotonic poisoning.  `Abort` with a nil error is a panic (no
resulting state); on a context whose stored error is already set, `Abort`
with any non-nil error returns the stored error and changes nothing, and no
codec operation ever clears or replaces the stored error. -/
theorem C4_abort_monotonic :
    (∀ c : Ctx, c.Abort none = none) ∧
    (∀ (c : Ctx) (e0 : Err), c.err = some e0 →
      (∀ e, c.abort e = (e0, c)) ∧
      (∀ e, c.Abort (some e) = some (e0, c)) ∧
      (∀ n, (c.Raw n).2.err = some e0) ∧
      (∀ w v, (integer w v c).2.2.err = some e0) ∧
      (∀ s, (StringOp s c).2.2.err = some e0) ∧
      (∀ b, (BytesOp b c).2.2.err = some e0) ∧
      (∀ (α : Type) (z : α) (f : α → Ctx → Option Err × α × Ctx) (sl : GoSlice α),
        (SliceOp z f sl c).2.2.err = some e0) ∧
      (∀ (κ ν : Type) (beq : κ → κ → Bool) (zk : κ) (zv : ν)
          (fK : κ → Ctx → Option Err × κ × Ctx) (fV : ν → Ctx → Option Err × ν × Ctx)
          (m : List (κ × ν)),
        (MapOp beq zk zv fK fV m c).2.2.err = some e0) ∧
      (∀ (mar : Except Err (List Nat)) (unm : List Nat → Except Err Unit),
        (Binary mar unm c).2.err = some e0)) := by
  refine ⟨fun c => rfl, fun c e0 h => ?_⟩
  refine ⟨fun e => by simp [Ctx.abort, h], fun e => by simp [Ctx.Abort, Ctx.abort, h],
    fun n => by rw [poisoned_Raw c e0 h n]; exact h,
    fun w v => by rw [poisoned_integer c e0 h w v]; exact h,
    fun s => by rw [poisoned_StringOp c e0 h s]; exact h,
    fun b => by rw [poisoned_BytesOp c e0 h b]; exact h,
    fun α z f sl => by rw [poisoned_SliceOp c e0 h z f sl]; exact h,
    fun κ ν beq zk zv fK fV m => by rw [poisoned_MapOp c e0 h beq zk zv fK fV m]; exact h,
    fun mar unm => by rw [poisoned_Binary c e0 h mar unm]; exact h⟩

theorem C4_abort_monotonic_witness :
    Ctx.Abort ⟨Mode.ser, [], none⟩ none = none ∧
    Ctx.abort ⟨Mode.ser, [3], some Err.unexpectedEnd⟩ (Err.capFail 1)
      = (Err.unexpectedEnd, ⟨Mode.ser, [3], some Err.unexpectedEnd⟩) :=
  ⟨C4_abort_monotonic.1 ⟨Mode.ser, [], none⟩,
   ((C4_abort_monotonic.2 ⟨Mode.ser, [3], some Err.unexpectedEnd⟩ Err.unexpectedEnd rfl).1
    (Err.capFail 1))⟩

/-- C5: every codec call on a poisoned context is a total no-op: it returns
the stored error, mutates neither the value nor the context, and (being a
total function) cannot panic. -/
theorem C5_poisoned_noop (c : Ctx) (e0 : Err) (h : c.err = some e0) :
    (∀ n, c.Raw n = (.error e0, c)) ∧
    (∀ w v, integer w v c = (some e0, v, c)) ∧
    (∀ s, StringOp s c = (some e0, s, c)) ∧
    (∀ b, BytesOp b c = (some e0, b, c)) ∧
    (∀ (α : Type) (z : α) (f : α → Ctx → Option Err × α × Ctx) (sl : GoSlice α),
      SliceOp z f sl c = (some e0, sl, c)) ∧
    (∀ (κ ν : Type) (beq : κ → κ → Bool) (zk : κ) (zv : ν)
        (fK : κ → Ctx → Option Err × κ × Ctx) (fV : ν → Ctx → Option Err × ν × Ctx)
        (m : List (κ × ν)),
      MapOp beq zk zv fK fV m c = (some e0, m, c)) ∧
    (∀ (mar : Except Err (List Nat)) (unm : List Nat → Except Err Unit),
      Binary mar unm c = (some e0, c)) :=
  ⟨poisoned_Raw c e0 h, poisoned_integer c e0 h, poisoned_StringOp c e0 h,
   poisoned_BytesOp c e0 h,
   fun _ z f sl => poisoned_SliceOp c e0 h z f sl,
   fun _ _ beq zk zv fK fV m => poisoned_MapOp c e0 h beq zk zv fK fV m,
   poisoned_Binary c e0 h⟩

theorem C5_poisoned_noop_witness :
    StringOp [3] ⟨Mode.de, [5], some Err.unexpectedEnd⟩
      = (some Err.unexpectedEnd, [3], ⟨Mode.de, [5], some Err.unexpectedEnd⟩) ∧
    BytesOp ⟨[1], [2]⟩ ⟨Mode.ser, [], some (Err.capFail 2)⟩
      = (some (Err.capFail 2), ⟨[1], [2]⟩, ⟨Mode.ser, [], some (Err.capFail 2)⟩) :=
  ⟨(C5_poisoned_noop ⟨Mode.de, [5], some Err.unexpectedEnd⟩ Err.unexpectedEnd rfl).2.2.1 [3],
   (C5_poisoned_noop ⟨Mode.ser, [], some (Err.capFail 2)⟩ (Err.capFail 2) rfl).2.2.2.1 ⟨[1], [2]⟩⟩

/-- C2 is FALSE of the code: `Binary` decode returns a capability
(`UnmarshalBinary`) failure without routing it through `Abort`, so the
context's stored error stays `none` — the context is NOT poisoned and
subsequent codec calls are not no-ops.  Here the capability rejects the
1-byte payload with `capFail 7`; the call returns that error, yet the
resulting context carries `err = none`. -/
theorem C2_binary_decode_does_not_poison :
    BinaryDe (fun _ => .error (Err.capFail 7)) ⟨Mode.de, leBytes 8 1 ++ [0], none⟩
      = (some (Err.capFail 7), ⟨Mode.de, [], none⟩) ∧
    (BinaryDe (fun _ => .error (Err.capFail 7))
        ⟨Mode.de, leBytes 8 1 ++ [0], none⟩).2.err = none := by
  constructor
  · have h := integer_de 8 0 1 [0] (by norm_num)
    simp only [BinaryDe, h]
    simp [Ctx.Raw]
  · have h := integer_de 8 0 1 [0] (by norm_num)
    simp only [BinaryDe, h]
    simp [Ctx.Raw]

/-- C7: floating-point values are encoded as their exact bit patterns via
the same-width integer path; encoding then decoding any float32 or float64
bit pattern — including positive infinity (0x7F800000 / 0x7FF0000000000000)
and every NaN payload — reproduces the exact same bit pattern. -/
theorem C7_float_bit_pattern_roundtrip (b32 b64 : Nat)
    (h32 : b32 < 2 ^ 32) (h64 : b64 < 2 ^ 64) :
    (NumberFloat32 b32 ⟨Mode.ser, [], none⟩
      = (none, b32, ⟨Mode.ser, leBytes 4 b32, none⟩)) ∧
    (NumberFloat32 0 ⟨Mode.de, leBytes 4 b32, none⟩
      = (none, b32, ⟨Mode.de, [], none⟩)) ∧
    (NumberFloat64 b64 ⟨Mode.ser, [], none⟩
      = (none, b64, ⟨Mode.ser, leBytes 8 b64, none⟩)) ∧
    (NumberFloat64 0 ⟨Mode.de, leBytes 8 b64, none⟩
      = (none, b64, ⟨Mode.de, [], none⟩)) := by
  have e32 := integer_ser 4 b32 []
  have d32 := integer_de 4 0 b32 [] (by norm_num at h32 ⊢; omega)
  have e64 := integer_ser 8 b64 []
  have d64 := integer_de 8 0 b64 [] (by norm_num at h64 ⊢; omega)
  simp only [List.append_nil] at d32 d64
  exact ⟨by simpa [NumberFloat32] using e32, by simpa [NumberFloat32] using d32,
    by simpa [NumberFloat64] using e64, by simpa [NumberFloat64] using d64⟩

theorem runElems_length (f : α → Ctx → Option Err × α × Ctx) :
    ∀ (l : List α) (c : Ctx), ((runElems f l c).2.1).length = l.length := by
  intro l
  induction l with
  | nil => intro c; rfl
  | cons a rest ih =>
    intro c
    simp only [runElems]
    rcases hf : f a c with ⟨e, a', c'⟩
    cases e with
    | some e => simp
    | none =>
      have hlen := ih c'
      rcases hr : runElems f rest c' with ⟨e2, rest', c''⟩
      rw [hr] at hlen
      simp only [hr]
      simp at hlen ⊢
      exact hlen

/-- Decode-mode computation of `BytesOp` on a well-formed length prefix. -/
theorem bytesOp_de (dst : GoSlice Nat) (payload rest : List Nat)
    (hn : payload.length < 2 ^ 64) :
    BytesOp dst ⟨Mode.de, leBytes 8 payload.length ++ (payload ++ rest), none⟩
      = if dst.cap < payload.length then
          (none, ⟨payload, []⟩, ⟨Mode.de, rest, none⟩)
        else
          (none,
           ⟨(payload ++ (dst.data ++ dst.extra).drop payload.length).take dst.data.length,
            (payload ++ (dst.data ++ dst.extra).drop payload.length).drop dst.data.length⟩,
           ⟨Mode.de, rest, none⟩) := by
  have hi := integer_de 8 dst.data.length payload.length (payload ++ rest)
    (by norm_num at hn ⊢; omega)
  have hnlt : ¬ ((payload ++ rest).length < payload.length) := by
    simp [List.length_append]
  have htake : (payload ++ rest).take payload.length = payload := List.take_left' rfl
  have hdrop : (payload ++ rest).drop payload.length = rest := List.drop_left' rfl
  simp only [BytesOp, hi, Ctx.Raw]
  simp only [List.length_append, hnlt, if_neg (by simp [List.length_append] : ¬ (payload.length + rest.length < payload.length))]
  simp [htake, hdrop]

/-- Decode-mode computation of `SliceOp` on a well-formed length prefix. -/
theorem sliceOp_de (z : α) (f : α → Ctx → Option Err × α × Ctx)
    (dst : GoSlice α) (count : Nat) (rest : List Nat) (hc : count < 2 ^ 64) :
    SliceOp z f dst ⟨Mode.de, leBytes 8 count ++ rest, none⟩
      = (match (if dst.data.length < count then
                  (⟨dst.data ++ List.replicate (count - dst.data.length) z, []⟩ : GoSlice α)
                else dst) with
         | slice' =>
           match runElems f (slice'.data.take count) ⟨Mode.de, rest, none⟩ with
           | (e, done, c'') => (e, ⟨done ++ slice'.data.drop count, slice'.extra⟩, c'')) := by
  have hi := integer_de 8 dst.data.length count rest (by norm_num at hc ⊢; omega)
  simp only [SliceOp, hi]

/-- C9: `Bytes` decode reallocates only when the destination capacity is
below the payload length; when the capacity suffices the destination keeps
its prior length, so extra prior elements are retained and trailing payload
bytes beyond the old length are not visible. -/
theorem C9_bytes_decode_realloc_policy (dst : GoSlice Nat) (payload rest : List Nat)
    (hn : payload.length < 2 ^ 64) :
    (dst.cap < payload.length →
      BytesOp dst ⟨Mode.de, leBytes 8 payload.length ++ (payload ++ rest), none⟩
        = (none, ⟨payload, []⟩, ⟨Mode.de, rest, none⟩)) ∧
    (payload.length ≤ dst.cap →
      (BytesOp dst ⟨Mode.de, leBytes 8 payload.length ++ (payload ++ rest), none⟩
        = (none,
           ⟨(payload ++ (dst.data ++ dst.extra).drop payload.length).take dst.data.length,
            (payload ++ (dst.data ++ dst.extra).drop payload.length).drop dst.data.length⟩,
           ⟨Mode.de, rest, none⟩)) ∧
      ((BytesOp dst ⟨Mode.de, leBytes 8 payload.length ++ (payload ++ rest), none⟩).2.1.data.length
        = dst.data.length) ∧
      (dst.data.length ≤ payload.length →
        (BytesOp dst ⟨Mode.de, leBytes 8 payload.length ++ (payload ++ rest), none⟩).2.1.data
          = payload.take dst.data.length) ∧
      (payload.length ≤ dst.data.length →
        (BytesOp dst ⟨Mode.de, leBytes 8 payload.length ++ (payload ++ rest), none⟩).2.1.data
          = payload ++ dst.data.drop payload.length)) := by
  have h := bytesOp_de dst payload rest hn
  constructor
  · intro hlt
    rw [h, if_pos hlt]
  · intro hge
    have hno : ¬ (dst.cap < payload.length) := by omega
    rw [h, if_neg hno]
    have hfull : (payload ++ (dst.data ++ dst.extra).drop payload.length).length
        = payload.length + (dst.cap - payload.length) := by
      simp only [GoSlice.cap, List.length_append, List.length_drop]
    refine ⟨rfl, ?_, ?_, ?_⟩
    · simp only [List.length_take, hfull]
      have : dst.data.length ≤ dst.cap := by simp [GoSlice.cap]
      omega
    · intro hle
      simp only
      rw [List.take_append_of_le_length hle]
    · intro hge2
      simp only
      have hdd : (dst.data ++ dst.extra).drop payload.length
          = dst.data.drop payload.length ++ dst.extra := List.drop_append_of_le_length hge2
      rw [hdd, ← List.append_assoc]
      have hlen2 : (payload ++ dst.data.drop payload.length).length = dst.data.length := by
        simp [List.length_append, List.length_drop]
        omega
      exact List.take_left' hlen2

/-- Witness for C9: capacity 3 suffices for a 1-byte payload, so the
destination keeps its length 2; with capacity 0 the destination is
reallocated to the payload. -/
theorem C9_bytes_decode_realloc_policy_witness :
    (BytesOp ⟨[9, 9], [7]⟩ ⟨Mode.de, leBytes 8 1 ++ ([5] ++ []), none⟩).2.1.data.length = 2 ∧
    BytesOp ⟨[], []⟩ ⟨Mode.de, leBytes 8 1 ++ ([5] ++ []), none⟩
      = (none, ⟨[5], []⟩, ⟨Mode.de, [], none⟩) :=
  ⟨((C9_bytes_decode_realloc_policy ⟨[9, 9], [7]⟩ [5] [] (by decide)).2 (by decide)).2.1,
   (C9_bytes_decode_realloc_policy ⟨[], []⟩ [5] [] (by decide)).1 (by decide)⟩

/-- C10: when the decoded count is at most the destination's length, Slice
decode performs no reallocation (the spare capacity is untouched), the
destination keeps its original length — it never shrinks — elements at
positions at or beyond the count keep their prior values, and the element
codec runs only on the first count positions, in order. -/
theorem C10_slice_decode_count_le_len (z : α) (f : α → Ctx → Option Err × α × Ctx)
    (dst : GoSlice α) (count : Nat) (rest : List Nat)
    (hcount : count ≤ dst.data.length) (hc : count < 2 ^ 64) :
    (SliceOp z f dst ⟨Mode.de, leBytes 8 count ++ rest, none⟩
      = (match runElems f (dst.data.take count) ⟨Mode.de, rest, none⟩ with
         | (e, done, c) => (e, ⟨done ++ dst.data.drop count, dst.extra⟩, c))) ∧
    ((SliceOp z f dst ⟨Mode.de, leBytes 8 count ++ rest, none⟩).2.1.extra = dst.extra) ∧
    ((SliceOp z f dst ⟨Mode.de, leBytes 8 count ++ rest, none⟩).2.1.data.length
      = dst.data.length) ∧
    ((SliceOp z f dst ⟨Mode.de, leBytes 8 count ++ rest, none⟩).2.1.data.drop count
      = dst.data.drop count) := by
  have hif : ¬ (dst.data.length < count) := by omega
  have h : SliceOp z f dst ⟨Mode.de, leBytes 8 count ++ rest, none⟩
      = (match runElems f (dst.data.take count) ⟨Mode.de, rest, none⟩ with
         | (e, done, c) => (e, ⟨done ++ dst.data.drop count, dst.extra⟩, c)) := by
    have h0 := sliceOp_de z f dst count rest hc
    rw [if_neg hif] at h0
    exact h0
  refine ⟨h, ?_, ?_, ?_⟩
  · rw [h]
  · rw [h]
    rcases hr : runElems f (dst.data.take count) ⟨Mode.de, rest, none⟩ with ⟨e, done, c⟩
    have hdlen : done.length = count := by
      have hx := runElems_length f (dst.data.take count) ⟨Mode.de, rest, none⟩
      rw [hr] at hx
      simpa [List.length_take, min_eq_left hcount] using hx
    show (done ++ dst.data.drop count).length = dst.data.length
    simp only [List.length_append, List.length_drop]
    omega
  · rw [h]
    rcases hr : runElems f (dst.data.take count) ⟨Mode.de, rest, none⟩ with ⟨e, done, c⟩
    have hdlen : done.length = count := by
      have hx := runElems_length f (dst.data.take count) ⟨Mode.de, rest, none⟩
      rw [hr] at hx
      simpa [List.length_take, min_eq_left hcount] using hx
    show (done ++ dst.data.drop count).drop count = dst.data.drop count
    exact List.drop_left' hdlen

theorem C10_slice_decode_count_le_len_witness :
    SliceOp 0 (integer 8) ⟨[7, 8], []⟩ ⟨Mode.de, leBytes 8 1 ++ leBytes 8 5, none⟩
      = (match runElems (integer 8) ([7, 8].take 1) ⟨Mode.de, leBytes 8 5, none⟩ with
         | (e, done, c) => (e, ⟨done ++ [7, 8].drop 1, []⟩, c)) :=
  (C10_slice_decode_count_le_len 0 (integer 8) ⟨[7, 8], []⟩ 1 (leBytes 8 5)
    (by decide) (by decide)).1

section SerLemmas

/-- An element codec that, in encode mode, only appends to the buffer and
keeps the context in encode mode — true of every codec in the library, which
can only reach the buffer through `Raw`. -/
def SerAppends (f : α → Ctx → Option Err × α × Ctx) : Prop :=
  ∀ (a : α) (c : Ctx), c.mode = Mode.ser →
    (f a c).2.2.mode = Mode.ser ∧ ∃ t, (f a c).2.2.bytes = c.bytes ++ t

theorem serAppends_integer (w : Nat) : SerAppends (integer w) := by
  intro v c hm
  cases he : c.err with
  | some e0 =>
    rw [poisoned_integer c e0 he]
    exact ⟨hm, [], by simp⟩
  | none =>
    rcases c with ⟨md, bs, er⟩
    simp only at hm he
    subst hm
    subst he
    rw [integer_ser w v bs]
    exact ⟨rfl, leBytes w v, rfl⟩

theorem leBytes_eq_div (w n : Nat) :
    leBytes w n = (List.range w).map (fun i => n / 2 ^ (8 * i) % 256) := by
  simp [leBytes, Nat.shiftRight_eq_div_pow]

/-- Encoding a string emits the 8-byte length followed by the raw bytes. -/
theorem stringOp_ser (s pre : List Nat) :
    StringOp s ⟨Mode.ser, pre, none⟩
      = (none, s, ⟨Mode.ser, pre ++ (leBytes 8 s.length ++ s), none⟩) := by
  have hi := integer_ser 8 s.length pre
  have hf := fillTail_append Mode.ser none (pre ++ leBytes 8 s.length)
    (List.replicate s.length 0) s (by simp)
  simp only [StringOp, hi, Ctx.Raw]
  simp only [List.append_assoc] at hf ⊢
  simp [hf]

/-- Encoding a byte slice emits the 8-byte length followed by the data. -/
theorem bytesOp_ser (b : GoSlice Nat) (pre : List Nat) :
    BytesOp b ⟨Mode.ser, pre, none⟩
      = (none, b, ⟨Mode.ser, pre ++ (leBytes 8 b.data.length ++ b.data), none⟩) := by
  have hi := integer_ser 8 b.data.length pre
  have hf := fillTail_append Mode.ser none (pre ++ leBytes 8 b.data.length)
    (List.replicate b.data.length 0) b.data (by simp)
  simp only [BytesOp, hi, Ctx.Raw]
  simp only [List.append_assoc] at hf ⊢
  simp [hf]

theorem runElems_serAppends (f : α → Ctx → Option Err × α × Ctx) (hf : SerAppends f) :
    ∀ (l : List α) (c : Ctx), c.mode = Mode.ser →
      (runElems f l c).2.2.mode = Mode.ser ∧
      ∃ t, (runElems f l c).2.2.bytes = c.bytes ++ t := by
  intro l
  induction l with
  | nil =>
    intro c hm
    exact ⟨hm, [], by simp [runElems]⟩
  | cons a rest ih =>
    intro c hm
    rcases hf2 : f a c with ⟨e, a', c'⟩
    have hfa := hf a c hm
    rw [hf2] at hfa
    obtain ⟨hm1, t1, hb1⟩ := hfa
    cases e with
    | some e =>
      simp only [runElems, hf2]
      exact ⟨hm1, t1, hb1⟩
    | none =>
      rcases hr : runElems f rest c' with ⟨e2, rest', c''⟩
      have hrec := ih c' hm1
      rw [hr] at hrec
      obtain ⟨hm2, t2, hb2⟩ := hrec
      simp only [runElems, hf2, hr]
      refine ⟨hm2, t1 ++ t2, ?_⟩
      have h1 : c'.bytes = c.bytes ++ t1 := hb1
      have h2 : c''.bytes = c'.bytes ++ t2 := hb2
      show c''.bytes = c.bytes ++ (t1 ++ t2)
      rw [h2, h1, List.append_assoc]

theorem mapSerLoop_serAppends (fK : κ → Ctx → Option Err × κ × Ctx)
    (fV : ν → Ctx → Option Err × ν × Ctx) (hK : SerAppends fK) (hV : SerAppends fV) :
    ∀ (l : List (κ × ν)) (c : Ctx), c.mode = Mode.ser →
      (mapSerLoop fK fV l c).2.mode = Mode.ser ∧
      ∃ t, (mapSerLoop fK fV l c).2.bytes = c.bytes ++ t := by
  intro l
  induction l with
  | nil =>
    intro c hm
    exact ⟨hm, [], by simp [mapSerLoop]⟩
  | cons kv rest ih =>
    intro c hm
    rcases kv with ⟨k, v⟩
    rcases hk2 : fK k c with ⟨e, k', c'⟩
    have hka := hK k c hm
    rw [hk2] at hka
    obtain ⟨hm1, t1, hb1⟩ := hka
    cases e with
    | some e =>
      simp only [mapSerLoop, hk2]
      exact ⟨hm1, t1, hb1⟩
    | none =>
      rcases hv2 : fV v c' with ⟨e2, v', c''⟩
      have hva := hV v c' hm1
      rw [hv2] at hva
      obtain ⟨hm2, t2, hb2⟩ := hva
      have h1 : c'.bytes = c.bytes ++ t1 := hb1
      have h2 : c''.bytes = c'.bytes ++ t2 := hb2
      cases e2 with
      | some e2 =>
        simp only [mapSerLoop, hk2, hv2]
        refine ⟨hm2, t1 ++ t2, ?_⟩
        show c''.bytes = c.bytes ++ (t1 ++ t2)
        rw [h2, h1, List.append_assoc]
      | none =>
        have hrec := ih c'' hm2
        obtain ⟨hm3, t3, hb3⟩ := hrec
        simp only [mapSerLoop, hk2, hv2]
        refine ⟨hm3, t1 ++ (t2 ++ t3), ?_⟩
        rw [hb3, h2, h1]
        simp [List.append_assoc]

/-- Encoding a slice emits the 8-byte element count first. -/
theorem sliceOp_ser_appends (z : α) (f : α → Ctx → Option Err × α × Ctx)
    (hf : SerAppends f) (sl : GoSlice α) (pre : List Nat) :
    ∃ t, (SliceOp z f sl ⟨Mode.ser, pre, none⟩).2.2.bytes
      = pre ++ (leBytes 8 sl.data.length ++ t) := by
  have hi := integer_ser 8 sl.data.length pre
  simp only [SliceOp, hi, lt_irrefl, if_neg, List.take_length]
  obtain ⟨_, t, hb⟩ := runElems_serAppends f hf sl.data
    ⟨Mode.ser, pre ++ leBytes 8 sl.data.length, none⟩ rfl
  exact ⟨t, by simpa [List.append_assoc] using hb⟩

/-- Encoding a map emits the 8-byte entry count first. -/
theorem mapOp_ser_appends (beq : κ → κ → Bool) (zk : κ) (zv : ν)
    (fK : κ → Ctx → Option Err × κ × Ctx) (fV : ν → Ctx → Option Err × ν × Ctx)
    (hK : SerAppends fK) (hV : SerAppends fV) (m : List (κ × ν)) (pre : List Nat) :
    ∃ t, (MapOp beq zk zv fK fV m ⟨Mode.ser, pre, none⟩).2.2.bytes
      = pre ++ (leBytes 8 m.length ++ t) := by
  have hi := integer_ser 8 m.length pre
  simp only [MapOp, hi]
  rcases hr : mapSerLoop fK fV m ⟨Mode.ser, pre ++ leBytes 8 m.length, none⟩ with ⟨e, c''⟩
  have hra := mapSerLoop_serAppends fK fV hK hV m
    ⟨Mode.ser, pre ++ leBytes 8 m.length, none⟩ rfl
  rw [hr] at hra
  obtain ⟨_, t, hb⟩ := hra
  exact ⟨t, by simpa [List.append_assoc] using hb⟩

/-- Encoding an external-binary payload emits the 8-byte length followed by
the marshalled bytes. -/
theorem binarySer_ok (data pre : List Nat) :
    BinarySer (.ok data) ⟨Mode.ser, pre, none⟩
      = (none, ⟨Mode.ser, pre ++ (leBytes 8 data.length ++ data), none⟩) := by
  have hi := integer_ser 8 data.length pre
  have hf := fillTail_append Mode.ser none (pre ++ leBytes 8 data.length)
    (List.replicate data.length 0) data (by simp)
  simp only [BinarySer, hi, Ctx.Raw]
  simp only [List.append_assoc] at hf ⊢
  simp [hf]

end SerLemmas

/-- C8: every length-prefixed encode operation (String, Bytes, Slice, Map,
Binary) first emits exactly 8 bytes that are the unsigned little-endian
encoding of the element or byte count (byte `i` is `count / 2^(8i) % 256`),
followed by the payload. -/
theorem C8_length_prefix_8byte_le :
    (∀ n : Nat, (leBytes 8 n).length = 8
      ∧ leBytes 8 n = (List.range 8).map (fun i => n / 2 ^ (8 * i) % 256)
      ∧ (n < 2 ^ 64 → leDecode (leBytes 8 n) = n)) ∧
    (∀ s pre, StringOp s ⟨Mode.ser, pre, none⟩
        = (none, s, ⟨Mode.ser, pre ++ (leBytes 8 s.length ++ s), none⟩)) ∧
    (∀ b pre, BytesOp b ⟨Mode.ser, pre, none⟩
        = (none, b, ⟨Mode.ser, pre ++ (leBytes 8 b.data.length ++ b.data), none⟩)) ∧
    (∀ (α : Type) (z : α) (f : α → Ctx → Option Err × α × Ctx), SerAppends f →
      ∀ (sl : GoSlice α) pre, ∃ t,
        (SliceOp z f sl ⟨Mode.ser, pre, none⟩).2.2.bytes
          = pre ++ (leBytes 8 sl.data.length ++ t)) ∧
    (∀ (κ ν : Type) (beq : κ → κ → Bool) (zk : κ) (zv : ν)
        (fK : κ → Ctx → Option Err × κ × Ctx) (fV : ν → Ctx → Option Err × ν × Ctx),
      SerAppends fK → SerAppends fV → ∀ (m : List (κ × ν)) pre, ∃ t,
        (MapOp beq zk zv fK fV m ⟨Mode.ser, pre, none⟩).2.2.bytes
          = pre ++ (leBytes 8 m.length ++ t)) ∧
    (∀ data pre, BinarySer (.ok data) ⟨Mode.ser, pre, none⟩
        = (none, ⟨Mode.ser, pre ++ (leBytes 8 data.length ++ data), none⟩)) :=
  ⟨fun n => ⟨leBytes_length 8 n, leBytes_eq_div 8 n,
      fun h => leDecode_leBytes 8 n (by norm_num at h ⊢; omega)⟩,
   stringOp_ser, bytesOp_ser,
   fun _ z f hf sl pre => sliceOp_ser_appends z f hf sl pre,
   fun _ _ beq zk zv fK fV hK hV m pre => mapOp_ser_appends beq zk zv fK fV hK hV m pre,
   binarySer_ok⟩

/-- Witness for C8: a one-element `uint8` slice encodes with an 8-byte
little-endian count prefix, and the 8-byte prefix for 300 decodes back to
300. -/
theorem C8_length_prefix_8byte_le_witness :
    (∃ t, (SliceOp 0 (integer 1) ⟨[5], []⟩ ⟨Mode.ser, [], none⟩).2.2.bytes
      = [] ++ (leBytes 8 1 ++ t)) ∧ leDecode (leBytes 8 300) = 300 :=
  ⟨by
    have h := C8_length_prefix_8byte_le.2.2.2.1 Nat 0 (integer 1) (serAppends_integer 1)
      ⟨[5], []⟩ []
    simpa using h,
   (C8_length_prefix_8byte_le.1 300).2.2 (by norm_num)⟩

/-- Supported fixed integer widths of the numeric codec (1, 2, 4, 8 bytes;
the platform-native `int`/`uint` width is 8 on the modelled platform, and
the float widths are 4 and 8). -/
inductive Width where
  | w1
  | w2
  | w4
  | w8
deriving DecidableEq, Repr

def Width.bytes : Width → Nat
  | .w1 => 1
  | .w2 => 2
  | .w4 => 4
  | .w8 => 8

/-- Schemas usable as Go map keys (`K comparable` excludes slices and
maps). -/
inductive KSchema where
  | num (w : Width)
  | str
deriving DecidableEq, Repr

/-- Field schemas built from the supported numeric, string, byte-slice,
slice and map field kinds — the shapes of value claim C1 quantifies over.
A user schema is an ordered composition of such fields; since the codec
threads the context left to right, closure under a single field kind at a
time gives closure under arbitrary nesting. -/
inductive Schema where
  | num (w : Width)
  | str
  | bytes
  | slice (elem : Schema)
  | map (key : KSchema) (val : Schema)
deriving DecidableEq, Repr

@[reducible] def KVal : KSchema → Type
  | .num _ => Nat
  | .str => List Nat

@[reducible] def Val : Schema → Type
  | .num _ => Nat
  | .str => List Nat
  | .bytes => GoSlice Nat
  | .slice e => GoSlice (Val e)
  | .map k v => List (KVal k × Val v)

/-- The Go zero value of a key type. -/
def kzero : (s : KSchema) → KVal s
  | .num _ => 0
  | .str => []

/-- The Go zero value of a field type (`var x T`): zero number, empty
string, nil slices and maps. -/
def zeroVal : (s : Schema) → Val s
  | .num _ => 0
  | .str => []
  | .bytes => ⟨[], []⟩
  | .slice _ => ⟨[], []⟩
  | .map _ _ => []

/-- Go's `comparable` equality at each key type. -/
def kbeq : (s : KSchema) → KVal s → KVal s → Bool
  | .num _ => fun a b => a == b
  | .str => fun a b => a == b

/-- The library codec for a key schema: `Number` or `String`. -/
def kcodec : (s : KSchema) → KVal s → Ctx → Option Err × KVal s × Ctx
  | .num w => Number w.bytes
  | .str => StringOp

/-- The library codec a user composes for a schema: `Number`, `String`,
`Bytes`, `Slice` and `Map` with the element codecs supplied recursively. -/
def codec : (s : Schema) → Val s → Ctx → Option Err × Val s × Ctx
  | .num w => Number w.bytes
  | .str => StringOp
  | .bytes => BytesOp
  | .slice e => SliceOp (zeroVal e) (codec e)
  | .map k v => MapOp (kbeq k) (kzero k) (zeroVal v) (kcodec k) (codec v)

/-- All keys pairwise distinct under `beq` — what being a Go map means for
the association-list model. -/
def distinctKeys (beq : κ → κ → Bool) : List (κ × ν) → Bool
  | [] => true
  | (k, _) :: rest => rest.all (fun p => !beq k p.1) && distinctKeys beq rest

/-- Values representable by the corresponding Go key type. -/
def kvalidb : (s : KSchema) → KVal s → Bool
  | .num w => fun v => decide (v < 2 ^ (8 * w.bytes))
  | .str => fun s => decide (s.length < 2 ^ 64) && s.all (fun b => decide (b < 256))

/-- Values representable by the corresponding Go type: numbers within their
width, bytes below 256, lengths below `2 ^ 64`, map keys distinct. -/
def validb : (s : Schema) → Val s → Bool
  | .num w => fun v => decide (v < 2 ^ (8 * w.bytes))
  | .str => fun s => decide (s.length < 2 ^ 64) && s.all (fun b => decide (b < 256))
  | .bytes => fun b => decide (b.data.length < 2 ^ 64)
      && b.data.all (fun x => decide (x < 256))
  | .slice e => fun sl => decide (sl.data.length < 2 ^ 64) && sl.data.all (validb e)
  | .map k v => fun m => decide (m.length < 2 ^ 64)
      && m.all (fun p => kvalidb k p.1 && validb v p.2)
      && distinctKeys (kbeq k) m

def optionRel (r : α → α → Prop) : Option α → Option α → Prop
  | none, none => True
  | some a, some b => r a b
  | _, _ => False

/-- Equality of decoded and original values as Go observes it: numbers and
strings by value, slices elementwise on the visible elements (spare
capacity is not part of the value), maps as key-to-value associations,
order-independent. -/
def eqv : (s : Schema) → Val s → Val s → Prop
  | .num _ => Eq
  | .str => Eq
  | .bytes => fun a b => a.data = b.data
  | .slice e => fun a b => List.Forall₂ (eqv e) a.data b.data
  | .map k v => fun a b => ∀ key : KVal k,
      optionRel (eqv v) (lookupAL (kbeq k) key a) (lookupAL (kbeq k) key b)

/-- Roundtrip contract of a codec `op` with zero value `z`: encoding a valid
value appends some byte string `out` and leaves the value untouched, and
decoding from `out` (before any continuation `rest`) into the zero value
consumes exactly `out` and yields a value related to the original. -/
def RTp (op : α → Ctx → Option Err × α × Ctx) (z : α)
    (valid : α → Prop) (r : α → α → Prop) : Prop :=
  ∀ a, valid a → ∃ out : List Nat,
    (∀ pre, op a ⟨Mode.ser, pre, none⟩ = (none, a, ⟨Mode.ser, pre ++ out, none⟩)) ∧
    (∀ rest, ∃ a', op z ⟨Mode.de, out ++ rest, none⟩ = (none, a', ⟨Mode.de, rest, none⟩)
      ∧ r a' a)

section RTLeaf

theorem rt_integer (w : Nat) :
    RTp (integer w) 0 (fun v => v < 2 ^ (8 * w)) Eq := by
  intro v hv
  exact ⟨leBytes w v, fun pre => integer_ser w v pre,
    fun rest => ⟨v, integer_de w 0 v rest hv, rfl⟩⟩

/-- Decoding a string from its length-prefixed encoding replaces the
destination with exactly the payload bytes. -/
theorem stringOp_de (s rest : List Nat) (h : s.length < 2 ^ 64) :
    StringOp [] ⟨Mode.de, leBytes 8 s.length ++ (s ++ rest), none⟩
      = (none, s, ⟨Mode.de, rest, none⟩) := by
  have hi := integer_de 8 0 s.length (s ++ rest) (by norm_num at h ⊢; omega)
  have hnlt : ¬ ((s ++ rest).length < s.length) := by
    simp [List.length_append]
  have htake : (s ++ rest).take s.length = s := List.take_left' rfl
  have hdrop : (s ++ rest).drop s.length = rest := List.drop_left' rfl
  have hz : ([] : List Nat).length = 0 := rfl
  simp only [StringOp, hz, hi, Ctx.Raw]
  simp only [List.length_append]
  rw [if_neg (by omega : ¬ (s.length + rest.length < s.length))]
  simp [htake, hdrop]

theorem rt_string :
    RTp StringOp []
      (fun s => s.length < 2 ^ 64 ∧ ∀ b ∈ s, b < 256) Eq := by
  intro s hs
  refine ⟨leBytes 8 s.length ++ s, ?_, ?_⟩
  · intro pre
    have h := stringOp_ser s pre
    simpa [List.append_assoc] using h
  · intro rest
    refine ⟨s, ?_, rfl⟩
    have h := stringOp_de s rest hs.1
    simpa [List.append_assoc] using h

theorem rt_bytes :
    RTp BytesOp ⟨[], []⟩
      (fun b => b.data.length < 2 ^ 64 ∧ ∀ x ∈ b.data, x < 256)
      (fun a b => a.data = b.data) := by
  intro b hb
  refine ⟨leBytes 8 b.data.length ++ b.data, ?_, ?_⟩
  · intro pre
    have h := bytesOp_ser b pre
    simpa [List.append_assoc] using h
  · intro rest
    have h := bytesOp_de ⟨[], []⟩ b.data rest hb.1
    by_cases hlen : b.data.length = 0
    · have hnil : b.data = [] := List.eq_nil_of_length_eq_zero hlen
      refine ⟨⟨[], []⟩, ?_, by simp [hnil]⟩
      simp only [hnil] at h ⊢
      simpa using h
    · have hcap : (⟨[], []⟩ : GoSlice Nat).cap < b.data.length := by
        simp only [GoSlice.cap, List.length_nil]
        omega
      rw [if_pos hcap] at h
      refine ⟨⟨b.data, []⟩, ?_, rfl⟩
      simpa [List.append_assoc] using h

end RTLeaf

section RTSlice

/-- The element loop roundtrips: encoding a list of valid elements appends
the concatenation of their encodings and leaves them unchanged, and running
the loop over the same number of zero values on that byte string decodes a
pointwise-related list. -/
theorem runElems_rt (f : α → Ctx → Option Err × α × Ctx) (z : α)
    (valid : α → Prop) (r : α → α → Prop) (hf : RTp f z valid r) :
    ∀ l : List α, (∀ a ∈ l, valid a) → ∃ out : List Nat,
      (∀ pre, runElems f l ⟨Mode.ser, pre, none⟩ = (none, l, ⟨Mode.ser, pre ++ out, none⟩)) ∧
      (∀ rest, ∃ l', runElems f (List.replicate l.length z) ⟨Mode.de, out ++ rest, none⟩
        = (none, l', ⟨Mode.de, rest, none⟩) ∧ List.Forall₂ r l' l) := by
  intro l
  induction l with
  | nil =>
    intro _
    exact ⟨[], fun pre => by simp [runElems], fun rest => ⟨[], by simp [runElems], by simp⟩⟩
  | cons a l ih =>
    intro hv
    obtain ⟨outa, hsa, hda⟩ := hf a (hv a (by simp))
    obtain ⟨outl, hsl, hdl⟩ := ih (fun x hx => hv x (by simp [hx]))
    refine ⟨outa ++ outl, ?_, ?_⟩
    · intro pre
      simp only [runElems, hsa pre, hsl (pre ++ outa), List.append_assoc]
    · intro rest
      obtain ⟨a', hda', hra⟩ := hda (outl ++ rest)
      obtain ⟨l', hdl', hrl⟩ := hdl rest
      refine ⟨a' :: l', ?_, List.Forall₂.cons hra hrl⟩
      have hbuf : (outa ++ outl) ++ rest = outa ++ (outl ++ rest) := List.append_assoc _ _ _
      simp only [List.length_cons, List.replicate_succ, runElems, hbuf, hda', hdl']

/-- The Slice codec roundtrips whenever its element codec does. -/
theorem rt_slice (z : α) (f : α → Ctx → Option Err × α × Ctx)
    (valid : α → Prop) (r : α → α → Prop) (hf : RTp f z valid r) :
    RTp (SliceOp z f) ⟨[], []⟩
      (fun sl => sl.data.length < 2 ^ 64 ∧ ∀ a ∈ sl.data, valid a)
      (fun a b => List.Forall₂ r a.data b.data) := by
  intro sl hsl
  obtain ⟨out, hser, hde⟩ := runElems_rt f z valid r hf sl.data hsl.2
  refine ⟨leBytes 8 sl.data.length ++ out, ?_, ?_⟩
  · intro pre
    have hi := integer_ser 8 sl.data.length pre
    simp only [SliceOp, hi, if_neg (lt_irrefl sl.data.length), List.take_length]
    rw [hser (pre ++ leBytes 8 sl.data.length)]
    simp [List.append_assoc]
  · intro rest
    have hi := integer_de 8 (0 : Nat) sl.data.length (out ++ rest)
      (by norm_num at hsl ⊢; omega)
    obtain ⟨l', hd, hr⟩ := hde rest
    refine ⟨⟨l', []⟩, ?_, hr⟩
    have hz : (⟨[], []⟩ : GoSlice α).data.length = 0 := rfl
    simp only [List.append_assoc] at hi ⊢
    simp only [SliceOp, hz, hi]
    by_cases hn : 0 < sl.data.length
    · rw [if_pos hn]
      simp only [List.nil_append, Nat.sub_zero, List.length_replicate]
      have htk : (List.replicate sl.data.length z).take sl.data.length
          = List.replicate sl.data.length z :=
        List.take_of_length_le (by simp)
      have hdr : (List.replicate sl.data.length z).drop sl.data.length = [] :=
        List.drop_of_length_le (by simp)
      rw [htk, hdr, hd]
      simp
    · have h0 : sl.data.length = 0 := by omega
      rw [if_neg (by omega)]
      simp only [h0] at hd ⊢
      simp only [List.take_nil, List.drop_nil]
      rw [show (List.replicate 0 z) = ([] : List α) from rfl] at hd
      rw [hd]
      simp

end RTSlice

section RTMap

theorem RTp_mono (op : α → Ctx → Option Err × α × Ctx) (z : α)
    (valid : α → Prop) (r r' : α → α → Prop) (h : ∀ a b, r a b → r' a b)
    (hrt : RTp op z valid r) : RTp op z valid r' := by
  intro a ha
  obtain ⟨out, hs, hd⟩ := hrt a ha
  refine ⟨out, hs, fun rest => ?_⟩
  obtain ⟨a', hda, hr⟩ := hd rest
  exact ⟨a', hda, h _ _ hr⟩

theorem RTp_valid_mono (op : α → Ctx → Option Err × α × Ctx) (z : α)
    (valid valid' : α → Prop) (r : α → α → Prop) (h : ∀ a, valid' a → valid a)
    (hrt : RTp op z valid r) : RTp op z valid' r :=
  fun a ha => hrt a (h a ha)

/-- Inserting a key absent from the map appends the entry. -/
theorem insertAL_append (beq : κ → κ → Bool) (k : κ) (v : ν) :
    ∀ acc : List (κ × ν), (∀ q ∈ acc, beq q.1 k = false) →
      insertAL beq k v acc = acc ++ [(k, v)] := by
  intro acc
  induction acc with
  | nil => intro _; rfl
  | cons q rest ih =>
    intro h
    rcases q with ⟨k', v'⟩
    simp only [insertAL]
    rw [if_neg (by simp [h ⟨k', v'⟩ (by simp)])]
    rw [ih (fun q hq => h q (by simp [hq]))]
    rfl

/-- Pairwise-related association lists have related lookups at every key. -/
theorem lookup_forall2 (beq : κ → κ → Bool) (r : ν → ν → Prop) :
    ∀ (a b : List (κ × ν)),
      List.Forall₂ (fun p q => p.1 = q.1 ∧ r p.2 q.2) a b →
      ∀ key, optionRel r (lookupAL beq key a) (lookupAL beq key b) := by
  intro a b h
  induction h with
  | nil =>
    intro key
    simp [lookupAL, optionRel]
  | @cons p q l₁ l₂ hpq hrest ih =>
    intro key
    rcases p with ⟨pk, pv⟩
    rcases q with ⟨qk, qv⟩
    obtain ⟨hk, hv⟩ := hpq
    simp only at hk hv
    simp only [lookupAL, hk]
    by_cases hb : beq qk key = true
    · simp only [if_pos hb, optionRel]
      exact hv
    · simp only [if_neg hb]
      exact ih key

/-- The map loops roundtrip: encoding the entries in list order appends the
concatenation of their key/value encodings; the decode loop run for the same
number of entries on those bytes inserts, in order, each original key paired
with a related value — appending them to whatever the accumulator holds,
provided all keys are fresh. -/
theorem map_rt_loops (beq : κ → κ → Bool) (zk : κ) (zv : ν)
    (fK : κ → Ctx → Option Err × κ × Ctx) (fV : ν → Ctx → Option Err × ν × Ctx)
    (validK : κ → Prop) (validV : ν → Prop) (r : ν → ν → Prop)
    (hK : RTp fK zk validK Eq) (hV : RTp fV zv validV r) :
    ∀ m : List (κ × ν), (∀ p ∈ m, validK p.1 ∧ validV p.2) →
      ∃ out : List Nat,
        (∀ pre, mapSerLoop fK fV m ⟨Mode.ser, pre, none⟩
          = (none, ⟨Mode.ser, pre ++ out, none⟩)) ∧
        (∀ rest acc, (∀ p ∈ m, ∀ q ∈ acc, beq q.1 p.1 = false) →
          distinctKeys beq m = true →
          ∃ m', mapDeLoop fK fV beq zk zv m.length acc ⟨Mode.de, out ++ rest, none⟩
            = (none, acc ++ m', ⟨Mode.de, rest, none⟩)
            ∧ List.Forall₂ (fun p q => p.1 = q.1 ∧ r p.2 q.2) m' m) := by
  intro m
  induction m with
  | nil =>
    intro _
    refine ⟨[], fun pre => by simp [mapSerLoop], fun rest acc _ _ => ⟨[], ?_, by simp⟩⟩
    simp [mapDeLoop]
  | cons p m ih =>
    rcases p with ⟨k, v⟩
    intro hv
    obtain ⟨hkv, hvv⟩ := hv (k, v) (by simp)
    obtain ⟨outK, hsK, hdK⟩ := hK k hkv
    obtain ⟨outV, hsV, hdV⟩ := hV v hvv
    obtain ⟨outM, hsM, hdM⟩ := ih (fun q hq => hv q (by simp [hq]))
    refine ⟨outK ++ (outV ++ outM), ?_, ?_⟩
    · intro pre
      simp only [mapSerLoop, hsK pre, hsV (pre ++ outK), hsM ((pre ++ outK) ++ outV)]
      simp [List.append_assoc]
    · intro rest acc hdisj hdist
      obtain ⟨k', hk', hkeq⟩ := hdK (outV ++ (outM ++ rest))
      subst hkeq
      obtain ⟨v', hv', hrv⟩ := hdV (outM ++ rest)
      have hdhead : ∀ q ∈ m, beq k' q.1 = false := by
        simp only [distinctKeys, Bool.and_eq_true, List.all_eq_true] at hdist
        intro q hq
        simpa using hdist.1 q hq
      have hdtail : distinctKeys beq m = true := by
        simp only [distinctKeys, Bool.and_eq_true] at hdist
        exact hdist.2
      have hins : insertAL beq k' v' acc = acc ++ [(k', v')] :=
        insertAL_append beq k' v' acc (fun q hq => hdisj (k', v) (by simp) q hq)
      obtain ⟨m', hm', hrm⟩ := hdM rest (acc ++ [(k', v')])
        (by
          intro p hp q hq
          rcases List.mem_append.mp hq with hq | hq
          · exact hdisj p (by simp [hp]) q hq
          · have : q = (k', v') := by simpa using hq
            rw [this]
            exact hdhead p hp)
        hdtail
      refine ⟨(k', v') :: m', ?_, List.Forall₂.cons ⟨rfl, hrv⟩ hrm⟩
      simp only [List.length_cons, mapDeLoop, List.append_assoc, hk', hv', hins]
      rw [hm']
      simp

/-- The Map codec roundtrips (pairwise, in entry order) whenever the key and
value codecs do and the keys are distinct. -/
theorem rt_map (beq : κ → κ → Bool) (zk : κ) (zv : ν)
    (fK : κ → Ctx → Option Err × κ × Ctx) (fV : ν → Ctx → Option Err × ν × Ctx)
    (validK : κ → Prop) (validV : ν → Prop) (r : ν → ν → Prop)
    (hK : RTp fK zk validK Eq) (hV : RTp fV zv validV r) :
    RTp (MapOp beq zk zv fK fV) []
      (fun m => m.length < 2 ^ 64 ∧ (∀ p ∈ m, validK p.1 ∧ validV p.2)
        ∧ distinctKeys beq m = true)
      (fun a b => List.Forall₂ (fun p q => p.1 = q.1 ∧ r p.2 q.2) a b) := by
  intro m hm
  obtain ⟨hlen, hval, hdist⟩ := hm
  obtain ⟨out, hser, hde⟩ := map_rt_loops beq zk zv fK fV validK validV r hK hV m hval
  refine ⟨leBytes 8 m.length ++ out, ?_, ?_⟩
  · intro pre
    have hi := integer_ser 8 m.length pre
    simp only [MapOp, hi]
    rw [hser (pre ++ leBytes 8 m.length)]
    simp [List.append_assoc]
  · intro rest
    have hi := integer_de 8 (0 : Nat) m.length (out ++ rest)
      (by norm_num at hlen ⊢; omega)
    obtain ⟨m', hm', hrm⟩ := hde rest [] (fun p _ q hq => absurd hq (by simp)) hdist
    refine ⟨m', ?_, hrm⟩
    have hz : (List.length ([] : List (κ × ν))) = 0 := rfl
    simp only [List.append_assoc] at hi ⊢
    simp only [MapOp, hz, hi]
    simpa using hm'

end RTMap

section RTCodec

theorem kbeq_lawful : ∀ (s : KSchema) (a b : KVal s), kbeq s a b = true ↔ a = b := by
  intro s
  cases s with
  | num w => intro a b; exact beq_iff_eq
  | str => intro a b; exact beq_iff_eq

theorem rt_kcodec : ∀ s : KSchema,
    RTp (kcodec s) (kzero s) (fun a => kvalidb s a = true) Eq := by
  intro s
  cases s with
  | num w =>
    refine RTp_valid_mono _ _ _ _ _ ?_ (rt_integer w.bytes)
    intro a ha
    simpa [kvalidb] using ha
  | str =>
    refine RTp_valid_mono _ _ _ _ _ ?_ rt_string
    intro a ha
    simp only [kvalidb, Bool.and_eq_true, decide_eq_true_eq, List.all_eq_true] at ha
    exact ⟨ha.1, fun b hb => by simpa using ha.2 b hb⟩

/-- Every schema's codec — the composition of the library's `Number`,
`String`, `Bytes`, `Slice` and `Map` operations — satisfies the roundtrip
contract on valid values. -/
theorem rt_codec : ∀ s : Schema,
    RTp (codec s) (zeroVal s) (fun a => validb s a = true) (eqv s) := by
  intro s
  induction s with
  | num w =>
    refine RTp_valid_mono _ _ _ _ _ ?_ (rt_integer w.bytes)
    intro a ha
    simpa [validb] using ha
  | str =>
    refine RTp_valid_mono _ _ _ _ _ ?_ rt_string
    intro a ha
    simp only [validb, Bool.and_eq_true, decide_eq_true_eq, List.all_eq_true] at ha
    exact ⟨ha.1, fun b hb => by simpa using ha.2 b hb⟩
  | bytes =>
    refine RTp_valid_mono _ _ _ _ _ ?_ rt_bytes
    intro a ha
    simp only [validb, Bool.and_eq_true, decide_eq_true_eq, List.all_eq_true] at ha
    exact ⟨ha.1, fun b hb => by simpa using ha.2 b hb⟩
  | slice e ihe =>
    refine RTp_valid_mono _ _ _ _ _ ?_
      (rt_slice (zeroVal e) (codec e) (fun a => validb e a = true) (eqv e) ihe)
    intro a ha
    simp only [validb, Bool.and_eq_true, decide_eq_true_eq, List.all_eq_true] at ha
    exact ⟨ha.1, ha.2⟩
  | map k v ihv =>
    refine RTp_valid_mono _ _ _ _ _ ?_
      (RTp_mono _ _ _ _ _ ?_
        (rt_map (kbeq k) (kzero k) (zeroVal v) (kcodec k) (codec v)
          (fun a => kvalidb k a = true) (fun a => validb v a = true) (eqv v)
          (rt_kcodec k) ihv))
    · intro m hm
      simp only [validb, Bool.and_eq_true, decide_eq_true_eq, List.all_eq_true] at hm
      exact ⟨hm.1.1, fun p hp => hm.1.2 p hp, hm.2⟩
    · intro a b hab
      exact lookup_forall2 (kbeq k) (eqv v) a b hab

end RTCodec

section PermMap

theorem distinctKeys_iff_pairwise (beq : κ → κ → Bool) :
    ∀ m : List (κ × ν),
      distinctKeys beq m = true ↔ m.Pairwise (fun p q => beq p.1 q.1 = false) := by
  intro m
  induction m with
  | nil => simp [distinctKeys]
  | cons p rest ih =>
    rcases p with ⟨k, v⟩
    simp only [distinctKeys, Bool.and_eq_true, List.all_eq_true, List.pairwise_cons, ih,
      Bool.not_eq_eq_eq_not, Bool.not_true]

theorem kbeq_false_symm (ks : KSchema) (a b : KVal ks)
    (h : kbeq ks a b = false) : kbeq ks b a = false := by
  cases hx : kbeq ks b a with
  | false => rfl
  | true =>
    have heq : b = a := (kbeq_lawful ks b a).mp hx
    have : kbeq ks a b = true := (kbeq_lawful ks a b).mpr heq.symm
    rw [this] at h
    exact absurd h (by simp)

/-- Lookups are invariant under permutation of a map with distinct keys. -/
theorem lookupAL_perm (ks : KSchema) (β : Type) :
    ∀ (m m' : List (KVal ks × β)), m.Perm m' →
      m.Pairwise (fun p q => kbeq ks p.1 q.1 = false) →
      ∀ key, lookupAL (kbeq ks) key m = lookupAL (kbeq ks) key m' := by
  intro m m' hperm
  induction hperm with
  | nil =>
    intro _ _
    rfl
  | @cons x l₁ l₂ hp ih =>
    intro hpw key
    have hpw' := (List.pairwise_cons.mp hpw).2
    rcases x with ⟨xk, xv⟩
    simp only [lookupAL]
    by_cases hb : kbeq ks xk key = true
    · simp only [if_pos hb]
    · simp only [if_neg hb]
      exact ih hpw' key
  | @swap x y l =>
    intro hpw key
    rcases x with ⟨xk, xv⟩
    rcases y with ⟨yk, yv⟩
    have hxy : kbeq ks yk xk = false := (List.pairwise_cons.mp hpw).1 (xk, xv) (by simp)
    simp only [lookupAL]
    by_cases hy : kbeq ks yk key = true
    · have hx : ¬ (kbeq ks xk key = true) := by
        intro hx
        have h1 : yk = key := (kbeq_lawful ks yk key).mp hy
        have h2 : xk = key := (kbeq_lawful ks xk key).mp hx
        have : kbeq ks yk xk = true := (kbeq_lawful ks yk xk).mpr (h1.trans h2.symm)
        rw [this] at hxy
        exact absurd hxy (by simp)
      simp only [if_pos hy, if_neg hx]
    · by_cases hx : kbeq ks xk key = true
      · simp only [if_neg hy, if_pos hx]
      · simp only [if_neg hy, if_neg hx]
  | @trans l₁ l₂ l₃ h12 h23 ih12 ih23 =>
    intro hpw key
    have hpw2 : l₂.Pairwise (fun p q => kbeq ks p.1 q.1 = false) :=
      (h12.pairwise_iff (fun h => kbeq_false_symm ks _ _ h)).mp hpw
    exact (ih12 hpw key).trans (ih23 hpw2 key)

end PermMap

theorem validb_map_perm (k : KSchema) (vs : Schema) (m m' : Val (Schema.map k vs))
    (h : validb (Schema.map k vs) m = true) (hp : List.Perm m m') :
    validb (Schema.map k vs) m' = true := by
  simp only [validb, Bool.and_eq_true, decide_eq_true_eq, List.all_eq_true] at h ⊢
  obtain ⟨⟨hlen, hall⟩, hdist⟩ := h
  refine ⟨⟨?_, ?_⟩, ?_⟩
  · rw [← hp.length_eq]
    exact hlen
  · intro p hpm
    exact hall p (hp.mem_iff.mpr hpm)
  · rw [distinctKeys_iff_pairwise] at hdist ⊢
    exact (hp.pairwise_iff (fun hxy => kbeq_false_symm k _ _ hxy)).mp hdist

/-- C1: round trip.  For every value of every schema built from the
supported numeric, string, byte-slice, slice and map fields, running the
decode operations over the bytes produced by the same sequence of encode
operations reproduces the value: slice elements positionally (`eqv` at a
slice schema is elementwise), map entries as an order-independent set of
key-to-value pairs (`eqv` at a map schema compares lookups at every key).
The second conjunct makes the order-independence explicit: encoding any
permutation of a map's entries — Go map iteration order is arbitrary —
still decodes to a value equivalent to the original map. -/
theorem C1_roundtrip :
    (∀ (s : Schema) (v : Val s), validb s v = true →
      ∃ out : List Nat,
        (∀ pre, codec s v ⟨Mode.ser, pre, none⟩ = (none, v, ⟨Mode.ser, pre ++ out, none⟩)) ∧
        (∀ rest, ∃ v', codec s (zeroVal s) ⟨Mode.de, out ++ rest, none⟩
          = (none, v', ⟨Mode.de, rest, none⟩) ∧ eqv s v' v)) ∧
    (∀ (k : KSchema) (vs : Schema) (m m' : Val (Schema.map k vs)),
      validb (Schema.map k vs) m = true → List.Perm m m' →
      ∃ out : List Nat,
        (∀ pre, codec (Schema.map k vs) m' ⟨Mode.ser, pre, none⟩
          = (none, m', ⟨Mode.ser, pre ++ out, none⟩)) ∧
        (∀ rest, ∃ m'', codec (Schema.map k vs) (zeroVal (Schema.map k vs))
            ⟨Mode.de, out ++ rest, none⟩
          = (none, m'', ⟨Mode.de, rest, none⟩) ∧ eqv (Schema.map k vs) m'' m)) := by
  constructor
  · exact fun s v hv => rt_codec s v hv
  · intro k vs m m' hvm hperm
    have hvm' : validb (Schema.map k vs) m' = true := validb_map_perm k vs m m' hvm hperm
    obtain ⟨out, hser, hde⟩ := rt_codec (Schema.map k vs) m' hvm'
    refine ⟨out, hser, fun rest => ?_⟩
    obtain ⟨m'', hd, he⟩ := hde rest
    refine ⟨m'', hd, ?_⟩
    have hpw : m.Pairwise (fun p q => kbeq k p.1 q.1 = false) := by
      have hdist : distinctKeys (kbeq k) m = true := by
        simp only [validb, Bool.and_eq_true] at hvm
        exact hvm.2
      exact (distinctKeys_iff_pairwise (kbeq k) m).mp hdist
    intro key
    have hlk := lookupAL_perm k (Val vs) m m' hperm hpw key
    rw [hlk]
    exact he key

/-- Witness for C1 at a concrete nested schema: a map from strings to
slices of `uint64`. -/
theorem C1_roundtrip_witness :
    ∃ out : List Nat,
      (∀ pre, codec (Schema.map KSchema.str (Schema.slice (Schema.num Width.w8)))
          [([104, 105], ⟨[3], []⟩)] ⟨Mode.ser, pre, none⟩
        = (none, [([104, 105], ⟨[3], []⟩)], ⟨Mode.ser, pre ++ out, none⟩)) ∧
      (∀ rest, ∃ v', codec (Schema.map KSchema.str (Schema.slice (Schema.num Width.w8)))
          (zeroVal (Schema.map KSchema.str (Schema.slice (Schema.num Width.w8))))
          ⟨Mode.de, out ++ rest, none⟩
        = (none, v', ⟨Mode.de, rest, none⟩)
        ∧ eqv (Schema.map KSchema.str (Schema.slice (Schema.num Width.w8))) v'
            [([104, 105], ⟨[3], []⟩)]) :=
  C1_roundtrip.1 (Schema.map KSchema.str (Schema.slice (Schema.num Width.w8)))
    [([104, 105], ⟨[3], []⟩)] (by decide)

/-- C6 fails as stated: the reallocation condition in `Slice` decode is on
the destination's LENGTH, not its capacity.  Here the destination has
length 1 and capacity 3, the decoded count 2 fits within the capacity, yet
the code allocates fresh storage sized exactly 2: the resulting capacity is
2, not the original 3. -/
theorem C6_capacity_condition_counterexample :
    ((⟨[7], [8, 9]⟩ : GoSlice Nat).cap = 3 ∧ 2 ≤ (⟨[7], [8, 9]⟩ : GoSlice Nat).cap) ∧
    SliceOp 0 (integer 8) ⟨[7], [8, 9]⟩
        ⟨Mode.de, leBytes 8 2 ++ (leBytes 8 5 ++ leBytes 8 6), none⟩
      = (none, ⟨[5, 6], []⟩, ⟨Mode.de, [], none⟩) ∧
    (SliceOp 0 (integer 8) ⟨[7], [8, 9]⟩
        ⟨Mode.de, leBytes 8 2 ++ (leBytes 8 5 ++ leBytes 8 6), none⟩).2.1.cap = 2 := by
  refine ⟨⟨rfl, by decide⟩, by decide, by decide⟩

/-- C6 amended: for every Slice decode where the decoded count exceeds the
destination's existing LENGTH, new storage is allocated, sized exactly to
the count (resulting capacity = count), the existing elements up to the old
length are copied into it as a prefix, and the element codec is invoked for
each of the count positions in order. -/
theorem C6_slice_decode_realloc_on_short_len (z : α) (f : α → Ctx → Option Err × α × Ctx)
    (dst : GoSlice α) (count : Nat) (rest : List Nat)
    (hlen : dst.data.length < count) (hc : count < 2 ^ 64) :
    (SliceOp z f dst ⟨Mode.de, leBytes 8 count ++ rest, none⟩
      = (match runElems f (dst.data ++ List.replicate (count - dst.data.length) z)
            ⟨Mode.de, rest, none⟩ with
         | (e, done, c) => (e, ⟨done, []⟩, c))) ∧
    ((dst.data ++ List.replicate (count - dst.data.length) z).take dst.data.length
      = dst.data) ∧
    ((SliceOp z f dst ⟨Mode.de, leBytes 8 count ++ rest, none⟩).2.1.cap = count) := by
  have h := sliceOp_de z f dst count rest hc
  rw [if_pos hlen] at h
  have hfull : (dst.data ++ List.replicate (count - dst.data.length) z).length = count := by
    simp [List.length_append, List.length_replicate]
    omega
  have htake : (dst.data ++ List.replicate (count - dst.data.length) z).take count
      = dst.data ++ List.replicate (count - dst.data.length) z :=
    List.take_of_length_le (le_of_eq hfull)
  have hdrop : (dst.data ++ List.replicate (count - dst.data.length) z).drop count = [] :=
    List.drop_of_length_le (le_of_eq hfull)
  simp only [htake, hdrop] at h
  rcases hr : runElems f (dst.data ++ List.replicate (count - dst.data.length) z)
      ⟨Mode.de, rest, none⟩ with ⟨e, done, c⟩
  have hdlen : done.length = count := by
    have hx := runElems_length f (dst.data ++ List.replicate (count - dst.data.length) z)
      ⟨Mode.de, rest, none⟩
    rw [hr] at hx
    simpa [hfull] using hx
  rw [hr] at h
  have h0 : SliceOp z f dst ⟨Mode.de, leBytes 8 count ++ rest, none⟩
      = (e, ⟨done ++ [], []⟩, c) := h
  refine ⟨?_, List.take_left _ _, ?_⟩
  · rw [h0]
    simp
  · rw [h0]
    simp [GoSlice.cap, hdlen]

theorem C6_slice_decode_realloc_on_short_len_witness :
    (([7] ++ List.replicate (2 - 1) 0).take 1 = [7]) ∧
    (SliceOp 0 (integer 8) ⟨[7], [8, 9]⟩
        ⟨Mode.de, leBytes 8 2 ++ (leBytes 8 5 ++ leBytes 8 6), none⟩).2.1.cap = 2 :=
  ⟨(C6_slice_decode_realloc_on_short_len 0 (integer 8) ⟨[7], [8, 9]⟩ 2
      (leBytes 8 5 ++ leBytes 8 6) (by decide) (by decide)).2.1,
   (C6_slice_decode_realloc_on_short_len 0 (integer 8) ⟨[7], [8, 9]⟩ 2
      (leBytes 8 5 ++ leBytes 8 6) (by decide) (by decide)).2.2⟩

/-- Witness for C7 at positive infinity (float32) and a quiet-NaN payload
(float64). -/
theorem C7_float_bit_pattern_roundtrip_witness :
    NumberFloat32 0 ⟨Mode.de, leBytes 4 0x7F800000, none⟩
      = (none, 0x7F800000, ⟨Mode.de, [], none⟩) ∧
    NumberFloat64 0 ⟨Mode.de, leBytes 8 0x7FF8000000000123, none⟩
      = (none, 0x7FF8000000000123, ⟨Mode.de, [], none⟩) :=
  ⟨(C7_float_bit_pattern_roundtrip 0x7F800000 0 (by norm_num) (by norm_num)).2.1,
   (C7_float_bit_pattern_roundtrip 0 0x7FF8000000000123 (by norm_num) (by norm_num)).2.2.2⟩
